import Mathlib

/-!
Verification of a probabilistic-object simulation.

The program keeps "quantum objects": weighted distributions over discrete grid
coordinates with a collapse flag and a final coordinate.  Operations are
distribution normalization, weighted random collapse, pairwise interaction
(combination of two distributions restricted to coincident coordinates,
followed by joint collapse) and collapsing every object of a world.

The embedding is shallow: a Go `map[[2]int]float64` becomes an association
list with unique keys (uniqueness appears as `Nodup` hypotheses where it
matters), `float64` arithmetic becomes exact arithmetic in `ℚ`, and the random
draw `rand.Float64()` becomes an explicit parameter `r`.  Iteration order of a
Go map is the list order of the association list.
-/

/-- A discrete grid coordinate: an ordered pair of integers (`[2]int`). -/
abbrev Coord := Int × Int

/-- A distribution: entries mapping a coordinate to a weight, in iteration
order (`map[[2]int]float64`). -/
abbrev CoordMap := List (Coord × ℚ)

/-- Sum of all weights of a distribution. -/
def total (d : CoordMap) : ℚ := (d.map Prod.snd).sum

/-- Go map read `d[c]`: first matching entry, `0` for an absent key. -/
def lookupW : CoordMap → Coord → ℚ
  | [], _ => 0
  | (c, w) :: rest, x => if c = x then w else lookupW rest x

/-- Go map write `d[c] += w`: add to the existing entry or append a new one. -/
def addW : CoordMap → Coord → ℚ → CoordMap
  | [], c, w => [(c, w)]
  | (c', w') :: rest, c, w =>
      if c' = c then (c', w' + w) :: rest else (c', w') :: addW rest c w

/-- `QuantumObject` from the source: name, coordinate distribution, collapse
flag and final coordinate. -/
structure QuantumObject where
  Name : String
  CoordDist : CoordMap
  IsCollapsed : Bool
  FinalCoord : Coord

/-- `NewQuantumObject`: uncollapsed, with Go zero values for the remaining
fields. -/
def NewQuantumObject (name : String) (dist : CoordMap) : QuantumObject :=
  { Name := name, CoordDist := dist, IsCollapsed := false, FinalCoord := (0, 0) }

/-- `NormalizeDistribution`: when the total weight is positive, divide every
weight by it; otherwise leave the distribution as it is. -/
def NormalizeDistribution (d : CoordMap) : CoordMap :=
  if 0 < total d then d.map (fun p => (p.1, p.2 / total d)) else d

/-- The scan inside `Collapse`: running cumulative sum over the entries, the
first entry with `r ≤ cumulative` is picked. -/
def collapseLoop (r : ℚ) : ℚ → CoordMap → Option Coord
  | _, [] => none
  | cumulative, (c, p) :: rest =>
      if r ≤ cumulative + p then some c else collapseLoop r (cumulative + p) rest

/-- `Collapse`: no-op on a collapsed object; otherwise normalize the
distribution in place, then scan it with the draw `r`.  A successful pick
fixes the coordinate and sets the flag; otherwise the object stays
uncollapsed (with its distribution normalized, as in the source). -/
def Collapse (q : QuantumObject) (r : ℚ) : QuantumObject :=
  if q.IsCollapsed then q
  else
    let d := NormalizeDistribution q.CoordDist
    match collapseLoop r 0 d with
    | some c => { q with CoordDist := d, FinalCoord := c, IsCollapsed := true }
    | none => { q with CoordDist := d }

/-- Inner loop of `MeasureInteraction` over `obj2`'s entries for one entry
`(c1, p1)` of `obj1`: on a coincident coordinate with positive weights, the
joint weight `p1 * p2` is accumulated into both result distributions. -/
def combineStep (c1 : Coord) (p1 : ℚ) : CoordMap × CoordMap → CoordMap → CoordMap × CoordMap
  | acc, [] => acc
  | acc, (c2, p2) :: rest =>
      combineStep c1 p1
        (if c1 = c2 ∧ 0 < p1 ∧ 0 < p2 then
           if 0 < p1 * p2 then (addW acc.1 c1 (p1 * p2), addW acc.2 c2 (p1 * p2))
           else acc
         else acc) rest

/-- Outer loop of `MeasureInteraction` over `obj1`'s entries. -/
def combineOuter (d2 : CoordMap) : CoordMap × CoordMap → CoordMap → CoordMap × CoordMap
  | acc, [] => acc
  | acc, (c1, p1) :: rest => combineOuter d2 (combineStep c1 p1 acc d2) rest

/-- The pair of combined distributions built by `MeasureInteraction` before it
decides whether the overlap is empty. -/
def combineInto (d1 d2 : CoordMap) : CoordMap × CoordMap := combineOuter d2 ([], []) d1

/-- `MeasureInteraction`: no-op when both objects are collapsed.  Otherwise
normalize both distributions in place, build the combined distributions, and
if neither is empty install them and collapse both objects (with draws `r1`
and `r2`).  On an empty overlap the objects are returned with only the
normalization applied, exactly as the source leaves them. -/
def MeasureInteraction (obj1 obj2 : QuantumObject) (r1 r2 : ℚ) :
    QuantumObject × QuantumObject :=
  if obj1.IsCollapsed && obj2.IsCollapsed then (obj1, obj2)
  else
    let o1 := { obj1 with CoordDist := NormalizeDistribution obj1.CoordDist }
    let o2 := { obj2 with CoordDist := NormalizeDistribution obj2.CoordDist }
    let nd := combineInto o1.CoordDist o2.CoordDist
    if nd.1 = [] ∨ nd.2 = [] then (o1, o2)
    else
      (Collapse { o1 with CoordDist := nd.1 } r1,
       Collapse { o2 with CoordDist := nd.2 } r2)

/-- `World`: descriptive bounds and the ordered collection of objects. -/
structure World where
  Width : Int
  Height : Int
  Objects : List QuantumObject

/-- `AddQuantumObject`: append an object to the world's collection. -/
def AddQuantumObject (w : World) (obj : QuantumObject) : World :=
  { w with Objects := w.Objects ++ [obj] }

/-- The loop of `CollapseAll`: collapse each object in order, the draw for
position `i` being `rs i`. -/
def collapseList : List QuantumObject → (Nat → ℚ) → List QuantumObject
  | [], _ => []
  | o :: rest, rs => Collapse o (rs 0) :: collapseList rest (fun n => rs (n + 1))

/-- `CollapseAll`: collapse every object of the world in collection order. -/
def CollapseAll (w : World) (rs : Nat → ℚ) : World :=
  { w with Objects := collapseList w.Objects rs }

/-- Total weight of the first `n` entries of a distribution. -/
def takeTotal (d : CoordMap) (n : Nat) : ℚ := total (d.take n)

/-- Follows the spec's words for the selection rule of resolve: the first
coordinate, in iteration order, whose running cumulative sum reaches the
draw `r`.  Used to state that `Collapse` implements exactly this rule. -/
def specSelect (r : ℚ) (d : CoordMap) : Option Coord :=
  match (List.range d.length).find? (fun i => decide (r ≤ takeTotal d (i + 1))) with
  | some i => ((d.drop i).head?).map Prod.fst
  | none => none

theorem total_nil : total ([] : CoordMap) = 0 := rfl

theorem total_cons (c : Coord) (p : ℚ) (rest : CoordMap) :
    total ((c, p) :: rest) = p + total rest := by
  simp [total]

theorem total_map_div (d : CoordMap) (t : ℚ) :
    total (d.map (fun p => (p.1, p.2 / t))) = total d / t := by
  induction d with
  | nil => simp [total]
  | cons hd tl ih =>
      obtain ⟨c, p⟩ := hd
      simp only [List.map_cons, total_cons] at ih ⊢
      rw [ih, add_div]

theorem normalize_pos_eq (d : CoordMap) (h : 0 < total d) :
    NormalizeDistribution d = d.map (fun p => (p.1, p.2 / total d)) := by
  simp only [NormalizeDistribution, if_pos h]

theorem normalize_total (d : CoordMap) (h : 0 < total d) :
    total (NormalizeDistribution d) = 1 := by
  rw [normalize_pos_eq d h, total_map_div, div_self (ne_of_gt h)]

theorem normalize_of_not_pos (d : CoordMap) (h : ¬ 0 < total d) :
    NormalizeDistribution d = d := by
  simp only [NormalizeDistribution, if_neg h]

/-- C5: `NormalizeDistribution` computes the total of all weights; if the
total is positive it replaces every weight `w` by `w / total` (after which the
weights sum to 1), and if the total is 0 it leaves every entry unchanged. -/
theorem normalize_spec (d : CoordMap) :
    (0 < total d →
      NormalizeDistribution d = d.map (fun p => (p.1, p.2 / total d)) ∧
      total (NormalizeDistribution d) = 1) ∧
    (total d = 0 → NormalizeDistribution d = d) := by
  refine ⟨fun h => ⟨normalize_pos_eq d h, normalize_total d h⟩, fun h => ?_⟩
  exact normalize_of_not_pos d (by rw [h]; exact lt_irrefl 0)

/-- Witness for `normalize_spec` at the distribution {(0,0): 2, (1,1): 2}. -/
theorem normalize_spec_witness :
    NormalizeDistribution [(((0:ℤ),(0:ℤ)), (2:ℚ)), (((1:ℤ),(1:ℤ)), (2:ℚ))]
      = [(((0:ℤ),(0:ℤ)), (1:ℚ)/2), (((1:ℤ),(1:ℤ)), (1:ℚ)/2)] ∧
    total (NormalizeDistribution [(((0:ℤ),(0:ℤ)), (2:ℚ)), (((1:ℤ),(1:ℤ)), (2:ℚ))]) = 1 := by
  have h := (normalize_spec [(((0:ℤ),(0:ℤ)), (2:ℚ)), (((1:ℤ),(1:ℤ)), (2:ℚ))]).1
    (by norm_num [total])
  refine ⟨?_, h.2⟩
  rw [h.1]
  norm_num [total]

/-- C8: normalization is idempotent on any distribution with positive total
weight — after the first pass the weights sum to 1, so the second pass divides
by 1. -/
theorem normalize_idempotent (d : CoordMap) (h : 0 < total d) :
    NormalizeDistribution (NormalizeDistribution d) = NormalizeDistribution d := by
  have h1 := normalize_total d h
  rw [normalize_pos_eq (NormalizeDistribution d) (by rw [h1]; exact one_pos), h1]
  simp

/-- Witness for `normalize_idempotent` at the distribution {(0,0): 3, (1,0): 1}. -/
theorem normalize_idempotent_witness :
    NormalizeDistribution (NormalizeDistribution
        [(((0:ℤ),(0:ℤ)), (3:ℚ)), (((1:ℤ),(0:ℤ)), (1:ℚ))])
      = NormalizeDistribution [(((0:ℤ),(0:ℤ)), (3:ℚ)), (((1:ℤ),(0:ℤ)), (1:ℚ))] :=
  normalize_idempotent [(((0:ℤ),(0:ℤ)), (3:ℚ)), (((1:ℤ),(0:ℤ)), (1:ℚ))]
    (by norm_num [total])

theorem total_eq_zero (d : CoordMap) (hw : ∀ p ∈ d, p.2 = 0) : total d = 0 := by
  refine List.sum_eq_zero fun x hx => ?_
  obtain ⟨p, hp, hpx⟩ := List.mem_map.mp hx
  rw [← hpx]
  exact hw p hp

theorem collapseLoop_shift (d : CoordMap) :
    ∀ r s, collapseLoop r s d = collapseLoop (r - s) 0 d := by
  induction d with
  | nil => intro r s; rfl
  | cons hd tl ih =>
      intro r s
      obtain ⟨c, p⟩ := hd
      simp only [collapseLoop]
      by_cases h : r ≤ s + p
      · rw [if_pos h, if_pos (by rw [zero_add]; exact sub_le_iff_le_add'.mpr h)]
      · rw [if_neg h, if_neg (by rw [zero_add]; exact fun hc => h (sub_le_iff_le_add'.mp hc)),
          ih r (s + p), ih (r - s) (0 + p)]
        congr 1
        ring

theorem collapseLoop_zero_weights (d : CoordMap) (r : ℚ) :
    ∀ s, (∀ p ∈ d, p.2 = 0) → s < r → collapseLoop r s d = none := by
  induction d with
  | nil => intro s _ _; rfl
  | cons hd tl ih =>
      intro s hw hr
      obtain ⟨c, p⟩ := hd
      have hp : p = 0 := hw (c, p) (List.mem_cons_self _ _)
      subst hp
      simp only [collapseLoop, add_zero]
      rw [if_neg (not_le.mpr hr)]
      exact ih s (fun q hq => hw q (List.mem_cons_of_mem _ hq)) hr

theorem collapseLoop_mem (d : CoordMap) (r : ℚ) :
    ∀ s c, collapseLoop r s d = some c → c ∈ d.map Prod.fst := by
  induction d with
  | nil => intro s c h; exact absurd h (by simp [collapseLoop])
  | cons hd tl ih =>
      intro s c h
      obtain ⟨c', p⟩ := hd
      simp only [collapseLoop] at h
      by_cases hc : r ≤ s + p
      · rw [if_pos hc] at h
        simp [← Option.some_inj.mp h]
      · rw [if_neg hc] at h
        exact List.mem_cons_of_mem _ (ih (s + p) c h)

theorem collapseLoop_isSome (d : CoordMap) (r : ℚ) :
    ∀ s, d ≠ [] → r ≤ s + total d → (collapseLoop r s d).isSome = true := by
  induction d with
  | nil => intro s h _; exact absurd rfl h
  | cons hd tl ih =>
      intro s _ hr
      obtain ⟨c, p⟩ := hd
      simp only [collapseLoop]
      by_cases hc : r ≤ s + p
      · rw [if_pos hc]; rfl
      · rw [if_neg hc]
        rcases List.eq_nil_or_concat tl with htl | ⟨_, _, htl⟩
        · subst htl
          rw [total_cons, total_nil, add_zero] at hr
          exact absurd hr hc
        · refine ih (s + p) (by simp [htl]) ?_
          rw [total_cons] at hr
          rw [add_assoc]
          exact hr

theorem normalize_keys (d : CoordMap) :
    (NormalizeDistribution d).map Prod.fst = d.map Prod.fst := by
  by_cases h : 0 < total d
  · rw [normalize_pos_eq d h, List.map_map]
    rfl
  · rw [normalize_of_not_pos d h]

/-- C3 (counterexample): the claim fails at the draw r = 0, which lies in
[0,1).  On the all-zero distribution {(0,0): 0} the scan condition
`r ≤ cumulative` holds at the first entry (0 ≤ 0), so `Collapse` does resolve
the object. -/
theorem collapse_zero_weight_counterexample :
    (Collapse (NewQuantumObject "Z" [(((0:ℤ),(0:ℤ)), (0:ℚ))]) 0).IsCollapsed = true ∧
    (0:ℚ) ≤ 0 ∧ (0:ℚ) < 1 := by
  refine ⟨?_, le_refl 0, by norm_num⟩
  norm_num [Collapse, NewQuantumObject, NormalizeDistribution, total, collapseLoop]

/-- C3 (amended): on an uncollapsed object whose distribution is empty or
all-zero, `Collapse` leaves the object uncollapsed and its final coordinate
untouched for every draw r with 0 < r; for the empty distribution this holds
for every draw, including 0.  (At r = 0 with a non-empty all-zero
distribution the object instead resolves to the first enumerated coordinate,
as the counterexample shows.  The embedding is total, so no crash is
possible.) -/
theorem collapse_degenerate_skips (q : QuantumObject) (r : ℚ)
    (hq : q.IsCollapsed = false) (hw : ∀ p ∈ q.CoordDist, p.2 = 0)
    (hr : q.CoordDist = [] ∨ 0 < r) :
    (Collapse q r).IsCollapsed = false ∧ (Collapse q r).FinalCoord = q.FinalCoord := by
  have ht : total q.CoordDist = 0 := total_eq_zero _ hw
  have hN : NormalizeDistribution q.CoordDist = q.CoordDist :=
    normalize_of_not_pos _ (by rw [ht]; exact lt_irrefl 0)
  have hL : collapseLoop r 0 (NormalizeDistribution q.CoordDist) = none := by
    rw [hN]
    rcases hr with h | h
    · rw [h]; rfl
    · exact collapseLoop_zero_weights _ r 0 hw h
  simp [Collapse, hq, hL]

/-- Witness for `collapse_degenerate_skips` at {(0,0): 0} and r = 1/2. -/
theorem collapse_degenerate_skips_witness :
    (Collapse (NewQuantumObject "Z2" [(((0:ℤ),(0:ℤ)), (0:ℚ))]) (1/2)).IsCollapsed = false ∧
    (Collapse (NewQuantumObject "Z2" [(((0:ℤ),(0:ℤ)), (0:ℚ))]) (1/2)).FinalCoord
      = (NewQuantumObject "Z2" [(((0:ℤ),(0:ℤ)), (0:ℚ))]).FinalCoord :=
  collapse_degenerate_skips _ _ rfl
    (by simp [NewQuantumObject]) (Or.inr (by norm_num))

/-- C10: when `Collapse` resolves an uncollapsed object, the final coordinate
it assigns is one of the keys of the object's distribution; it never
fabricates a coordinate outside the distribution's domain. -/
theorem collapse_support (q : QuantumObject) (r : ℚ)
    (hq : q.IsCollapsed = false) (hc : (Collapse q r).IsCollapsed = true) :
    (Collapse q r).FinalCoord ∈ q.CoordDist.map Prod.fst := by
  cases hls : collapseLoop r 0 (NormalizeDistribution q.CoordDist) with
  | none => simp [Collapse, hq, hls] at hc
  | some c =>
      have hmem : c ∈ (NormalizeDistribution q.CoordDist).map Prod.fst :=
        collapseLoop_mem _ r 0 c hls
      rw [normalize_keys] at hmem
      simpa [Collapse, hq, hls] using hmem

/-- Witness for `collapse_support` at {(2,3): 1} and r = 1/2. -/
theorem collapse_support_witness :
    (Collapse (NewQuantumObject "S" [(((2:ℤ),(3:ℤ)), (1:ℚ))]) (1/2)).FinalCoord
      ∈ (NewQuantumObject "S" [(((2:ℤ),(3:ℤ)), (1:ℚ))]).CoordDist.map Prod.fst :=
  collapse_support _ _ rfl
    (by norm_num [Collapse, NewQuantumObject, NormalizeDistribution, total, collapseLoop])

theorem takeTotal_zero (d : CoordMap) : takeTotal d 0 = 0 := rfl

theorem takeTotal_succ_cons (c : Coord) (p : ℚ) (rest : CoordMap) (n : Nat) :
    takeTotal ((c, p) :: rest) (n + 1) = p + takeTotal rest n := by
  simp [takeTotal, List.take_succ_cons, total_cons]

theorem collapseLoop_eq_specSelect (d : CoordMap) :
    ∀ r, collapseLoop r 0 d = specSelect r d := by
  induction d with
  | nil => intro r; rfl
  | cons hd tl ih =>
      intro r
      obtain ⟨c, p⟩ := hd
      simp only [collapseLoop, zero_add, specSelect, List.length_cons,
        List.range_succ_eq_map]
      by_cases h : r ≤ p
      · rw [if_pos h, List.find?_cons_of_pos _ (by
          simp only [takeTotal_succ_cons, takeTotal_zero, add_zero, decide_eq_true_eq]
          exact h)]
        simp
      · rw [if_neg h, collapseLoop_shift tl r p, ih (r - p),
          List.find?_cons_of_neg _ (by
            simp only [takeTotal_succ_cons, takeTotal_zero, add_zero, decide_eq_true_eq]
            exact h),
          List.find?_map]
        have hpred : ((fun i => decide (r ≤ takeTotal ((c, p) :: tl) (i + 1))) ∘ Nat.succ)
            = (fun i => decide (r - p ≤ takeTotal tl (i + 1))) := by
          funext i
          simp only [Function.comp_apply, takeTotal_succ_cons]
          exact decide_eq_decide.mpr sub_le_iff_le_add'.symm
        rw [hpred]
        cases hF : (List.range tl.length).find?
            (fun i => decide (r - p ≤ takeTotal tl (i + 1))) with
        | none =>
            simp only [specSelect]
            rw [hF]
            rfl
        | some i =>
            simp only [specSelect]
            rw [hF]
            simp [List.drop_succ_cons]

/-- C4: on an uncollapsed object, `Collapse` accumulates a running cumulative
sum over the entries of the (in-place normalized) distribution in iteration
order and selects the first coordinate whose cumulative sum reaches the draw
r; `specSelect` states that selection rule in the spec's words.  The witness
instantiates the claim's two draws on {(0,0): 0.3, (1,0): 0.7}. -/
theorem collapse_first_reached (q : QuantumObject) (r : ℚ) (c : Coord)
    (hq : q.IsCollapsed = false)
    (hs : specSelect r (NormalizeDistribution q.CoordDist) = some c) :
    (Collapse q r).IsCollapsed = true ∧ (Collapse q r).FinalCoord = c := by
  have hl : collapseLoop r 0 (NormalizeDistribution q.CoordDist) = some c := by
    rw [collapseLoop_eq_specSelect]
    exact hs
  simp [Collapse, hq, hl]

/-- Witness for `collapse_first_reached`: on {(0,0): 3/10, (1,0): 7/10} the
draw 2/10 selects (0,0) and the draw 5/10 selects (1,0). -/
theorem collapse_first_reached_witness :
    ((Collapse (NewQuantumObject "D"
        [(((0:ℤ),(0:ℤ)), (3:ℚ)/10), (((1:ℤ),(0:ℤ)), (7:ℚ)/10)]) (2/10)).IsCollapsed = true ∧
      (Collapse (NewQuantumObject "D"
        [(((0:ℤ),(0:ℤ)), (3:ℚ)/10), (((1:ℤ),(0:ℤ)), (7:ℚ)/10)]) (2/10)).FinalCoord
        = ((0:ℤ),(0:ℤ))) ∧
    ((Collapse (NewQuantumObject "D"
        [(((0:ℤ),(0:ℤ)), (3:ℚ)/10), (((1:ℤ),(0:ℤ)), (7:ℚ)/10)]) (5/10)).IsCollapsed = true ∧
      (Collapse (NewQuantumObject "D"
        [(((0:ℤ),(0:ℤ)), (3:ℚ)/10), (((1:ℤ),(0:ℤ)), (7:ℚ)/10)]) (5/10)).FinalCoord
        = ((1:ℤ),(0:ℤ))) := by
  have hN : NormalizeDistribution (NewQuantumObject "D"
      [(((0:ℤ),(0:ℤ)), (3:ℚ)/10), (((1:ℤ),(0:ℤ)), (7:ℚ)/10)]).CoordDist
      = [(((0:ℤ),(0:ℤ)), (3:ℚ)/10), (((1:ℤ),(0:ℤ)), (7:ℚ)/10)] := by
    norm_num [NewQuantumObject, NormalizeDistribution, total]
  constructor
  · exact collapse_first_reached _ _ _ rfl (by
      rw [hN, ← collapseLoop_eq_specSelect]
      norm_num [collapseLoop])
  · exact collapse_first_reached _ _ _ rfl (by
      rw [hN, ← collapseLoop_eq_specSelect]
      norm_num [collapseLoop])

theorem lookupW_nil (x : Coord) : lookupW [] x = 0 := rfl

theorem lookupW_cons (c : Coord) (w : ℚ) (d : CoordMap) (x : Coord) :
    lookupW ((c, w) :: d) x = if c = x then w else lookupW d x := rfl

theorem lookupW_eq_zero_of_notmem (x : Coord) :
    ∀ d : CoordMap, x ∉ d.map Prod.fst → lookupW d x = 0 := by
  intro d
  induction d with
  | nil => intro _; rfl
  | cons hd tl ih =>
      intro hx
      obtain ⟨c, w⟩ := hd
      simp only [List.map_cons, List.mem_cons, not_or] at hx
      rw [lookupW_cons, if_neg (fun h => hx.1 h.symm)]
      exact ih hx.2

theorem lookupW_addW_self (c : Coord) (w : ℚ) :
    ∀ d : CoordMap, lookupW (addW d c w) c = lookupW d c + w := by
  intro d
  induction d with
  | nil => simp [addW, lookupW]
  | cons hd tl ih =>
      obtain ⟨c', w'⟩ := hd
      by_cases h : c' = c
      · subst h
        simp [addW, lookupW]
      · simp [addW, lookupW, h, ih]

theorem lookupW_addW_ne (c x : Coord) (w : ℚ) (hx : c ≠ x) :
    ∀ d : CoordMap, lookupW (addW d c w) x = lookupW d x := by
  intro d
  induction d with
  | nil => simp [addW, lookupW, hx]
  | cons hd tl ih =>
      obtain ⟨c', w'⟩ := hd
      by_cases h : c' = c
      · subst h
        simp [addW, lookupW, hx]
      · simp [addW, lookupW, h, ih]

theorem addW_pos (c : Coord) (w : ℚ) (hw : 0 < w) :
    ∀ d : CoordMap, (∀ p ∈ d, 0 < p.2) → ∀ p ∈ addW d c w, 0 < p.2 := by
  intro d
  induction d with
  | nil =>
      intro _ p hp
      have hp' : p = (c, w) := List.mem_singleton.mp hp
      rw [hp']
      exact hw
  | cons hd tl ih =>
      intro hall p hp
      obtain ⟨c', w'⟩ := hd
      by_cases h : c' = c
      · rw [addW, if_pos h] at hp
        rcases List.mem_cons.mp hp with hp' | hp'
        · rw [hp']
          exact add_pos (hall (c', w') (List.mem_cons_self _ _)) hw
        · exact hall p (List.mem_cons_of_mem _ hp')
      · rw [addW, if_neg h] at hp
        rcases List.mem_cons.mp hp with hp' | hp'
        · rw [hp']
          exact hall (c', w') (List.mem_cons_self _ _)
        · exact ih (fun q hq => hall q (List.mem_cons_of_mem _ hq)) p hp'

theorem combineStep_pos (c1 : Coord) (p1 : ℚ) :
    ∀ (d2 : CoordMap) (acc : CoordMap × CoordMap),
      (∀ p ∈ acc.1, 0 < p.2) → (∀ p ∈ acc.2, 0 < p.2) →
      (∀ p ∈ (combineStep c1 p1 acc d2).1, 0 < p.2) ∧
      (∀ p ∈ (combineStep c1 p1 acc d2).2, 0 < p.2) := by
  intro d2
  induction d2 with
  | nil => intro acc h1 h2; exact ⟨h1, h2⟩
  | cons hd tl ih =>
      intro acc h1 h2
      obtain ⟨c2, p2⟩ := hd
      simp only [combineStep]
      by_cases hc : c1 = c2 ∧ 0 < p1 ∧ 0 < p2
      · have hw : 0 < p1 * p2 := mul_pos hc.2.1 hc.2.2
        rw [if_pos hc, if_pos hw]
        exact ih _ (addW_pos _ _ hw _ h1) (addW_pos _ _ hw _ h2)
      · rw [if_neg hc]
        exact ih acc h1 h2

theorem combineOuter_pos (d2 : CoordMap) :
    ∀ (d1 : CoordMap) (acc : CoordMap × CoordMap),
      (∀ p ∈ acc.1, 0 < p.2) → (∀ p ∈ acc.2, 0 < p.2) →
      (∀ p ∈ (combineOuter d2 acc d1).1, 0 < p.2) ∧
      (∀ p ∈ (combineOuter d2 acc d1).2, 0 < p.2) := by
  intro d1
  induction d1 with
  | nil => intro acc h1 h2; exact ⟨h1, h2⟩
  | cons hd tl ih =>
      intro acc h1 h2
      obtain ⟨c1, p1⟩ := hd
      simp only [combineOuter]
      have hs := combineStep_pos c1 p1 d2 acc h1 h2
      exact ih _ hs.1 hs.2

theorem combineInto_pos (d1 d2 : CoordMap) :
    (∀ p ∈ (combineInto d1 d2).1, 0 < p.2) ∧
    (∀ p ∈ (combineInto d1 d2).2, 0 < p.2) :=
  combineOuter_pos d2 d1 ([], []) (by simp) (by simp)

theorem combineStep_fst_eq_snd (c1 : Coord) (p1 : ℚ) :
    ∀ (d2 : CoordMap) (acc : CoordMap × CoordMap), acc.1 = acc.2 →
      (combineStep c1 p1 acc d2).1 = (combineStep c1 p1 acc d2).2 := by
  intro d2
  induction d2 with
  | nil => intro acc h; exact h
  | cons hd tl ih =>
      intro acc h
      obtain ⟨c2, p2⟩ := hd
      simp only [combineStep]
      by_cases hc : c1 = c2 ∧ 0 < p1 ∧ 0 < p2
      · rw [if_pos hc, if_pos (mul_pos hc.2.1 hc.2.2)]
        exact ih _ (by rw [h, hc.1])
      · rw [if_neg hc]
        exact ih acc h

theorem combineOuter_fst_eq_snd (d2 : CoordMap) :
    ∀ (d1 : CoordMap) (acc : CoordMap × CoordMap), acc.1 = acc.2 →
      (combineOuter d2 acc d1).1 = (combineOuter d2 acc d1).2 := by
  intro d1
  induction d1 with
  | nil => intro acc h; exact h
  | cons hd tl ih =>
      intro acc h
      obtain ⟨c1, p1⟩ := hd
      simp only [combineOuter]
      exact ih _ (combineStep_fst_eq_snd c1 p1 d2 acc h)

theorem combineInto_fst_eq_snd (d1 d2 : CoordMap) :
    (combineInto d1 d2).1 = (combineInto d1 d2).2 :=
  combineOuter_fst_eq_snd d2 d1 ([], []) rfl

/-- C9: the two combined distributions built by `MeasureInteraction` are
equal as mappings — they are the same association list, hence have the same
coordinates and the same weight everywhere. -/
theorem combine_installed_equal (d1 d2 : CoordMap) :
    (combineInto d1 d2).1 = (combineInto d1 d2).2 ∧
    ∀ c : Coord, lookupW (combineInto d1 d2).1 c = lookupW (combineInto d1 d2).2 c := by
  have h := combineInto_fst_eq_snd d1 d2
  exact ⟨h, fun c => by rw [h]⟩

theorem combineStep_notmem (c1 : Coord) (p1 : ℚ) :
    ∀ (d2 : CoordMap) (acc : CoordMap × CoordMap), c1 ∉ d2.map Prod.fst →
      combineStep c1 p1 acc d2 = acc := by
  intro d2
  induction d2 with
  | nil => intro acc _; rfl
  | cons hd tl ih =>
      intro acc hc1
      obtain ⟨c2, p2⟩ := hd
      simp only [List.map_cons, List.mem_cons, not_or] at hc1
      simp only [combineStep]
      rw [if_neg (fun hcon => hc1.1 hcon.1)]
      exact ih acc hc1.2

theorem combineStep_eq (c1 : Coord) (p1 : ℚ) :
    ∀ (d2 : CoordMap) (acc : CoordMap × CoordMap), (d2.map Prod.fst).Nodup →
      combineStep c1 p1 acc d2 =
        if 0 < p1 ∧ 0 < lookupW d2 c1 then
          (addW acc.1 c1 (p1 * lookupW d2 c1), addW acc.2 c1 (p1 * lookupW d2 c1))
        else acc := by
  intro d2
  induction d2 with
  | nil =>
      intro acc _
      simp [combineStep, lookupW]
  | cons hd tl ih =>
      intro acc hnd
      obtain ⟨c2, p2⟩ := hd
      simp only [List.map_cons, List.nodup_cons] at hnd
      obtain ⟨hc2, hndtl⟩ := hnd
      by_cases h12 : c1 = c2
      · subst h12
        have hlk : lookupW ((c1, p2) :: tl) c1 = p2 := by
          rw [lookupW_cons, if_pos rfl]
        rw [hlk]
        simp only [combineStep]
        by_cases hpos : 0 < p1 ∧ 0 < p2
        · have hcond : True ∧ 0 < p1 ∧ 0 < p2 := ⟨trivial, hpos⟩
          rw [if_pos hcond, if_pos (mul_pos hpos.1 hpos.2),
            combineStep_notmem c1 p1 tl _ hc2, if_pos hpos]
        · have hcond : ¬(True ∧ 0 < p1 ∧ 0 < p2) := fun hcon => hpos hcon.2
          rw [if_neg hcond, combineStep_notmem c1 p1 tl _ hc2, if_neg hpos]
      · have hne : c2 ≠ c1 := fun h => h12 h.symm
        have hlk : lookupW ((c2, p2) :: tl) c1 = lookupW tl c1 := by
          rw [lookupW_cons, if_neg hne]
        rw [hlk]
        simp only [combineStep]
        have hcond : ¬(c1 = c2 ∧ 0 < p1 ∧ 0 < p2) := fun hcon => h12 hcon.1
        rw [if_neg hcond]
        exact ih acc hndtl

theorem combineOuter_lookup (d2 : CoordMap) (hnd2 : (d2.map Prod.fst).Nodup) :
    ∀ d1 : CoordMap, (d1.map Prod.fst).Nodup →
      ∀ (acc : CoordMap × CoordMap) (x : Coord),
        lookupW (combineOuter d2 acc d1).1 x
          = lookupW acc.1 x +
            (if 0 < lookupW d1 x ∧ 0 < lookupW d2 x then lookupW d1 x * lookupW d2 x else 0) ∧
        lookupW (combineOuter d2 acc d1).2 x
          = lookupW acc.2 x +
            (if 0 < lookupW d1 x ∧ 0 < lookupW d2 x then lookupW d1 x * lookupW d2 x else 0) := by
  intro d1
  induction d1 with
  | nil =>
      intro _ acc x
      simp [combineOuter, lookupW]
  | cons hd tl ih =>
      intro hnd1 acc x
      obtain ⟨c1, p1⟩ := hd
      simp only [List.map_cons, List.nodup_cons] at hnd1
      obtain ⟨hc1, hndtl⟩ := hnd1
      simp only [combineOuter]
      rw [combineStep_eq c1 p1 d2 acc hnd2]
      by_cases hx : x = c1
      · subst hx
        have htl0 : lookupW tl x = 0 := lookupW_eq_zero_of_notmem x tl hc1
        have hcons : lookupW ((x, p1) :: tl) x = p1 := by
          rw [lookupW_cons, if_pos rfl]
        have hiffalse : ¬(0 < lookupW tl x ∧ 0 < lookupW d2 x) := by
          rw [htl0]
          exact fun hcon => lt_irrefl 0 hcon.1
        by_cases hpos : 0 < p1 ∧ 0 < lookupW d2 x
        · rw [if_pos hpos]
          have hih := ih hndtl
            (addW acc.1 x (p1 * lookupW d2 x), addW acc.2 x (p1 * lookupW d2 x)) x
          rw [hcons, if_pos hpos]
          constructor
          · rw [hih.1, if_neg hiffalse, add_zero]
            show lookupW (addW acc.1 x (p1 * lookupW d2 x)) x = _
            rw [lookupW_addW_self]
          · rw [hih.2, if_neg hiffalse, add_zero]
            show lookupW (addW acc.2 x (p1 * lookupW d2 x)) x = _
            rw [lookupW_addW_self]
        · rw [if_neg hpos]
          have hih := ih hndtl acc x
          rw [hcons, if_neg hpos]
          constructor
          · rw [hih.1, if_neg hiffalse]
          · rw [hih.2, if_neg hiffalse]
      · have hne : c1 ≠ x := fun h => hx h.symm
        have hcons : lookupW ((c1, p1) :: tl) x = lookupW tl x := by
          rw [lookupW_cons, if_neg hne]
        by_cases hpos : 0 < p1 ∧ 0 < lookupW d2 c1
        · rw [if_pos hpos]
          have hih := ih hndtl
            (addW acc.1 c1 (p1 * lookupW d2 c1), addW acc.2 c1 (p1 * lookupW d2 c1)) x
          rw [hcons]
          constructor
          · rw [hih.1]
            show lookupW (addW acc.1 c1 (p1 * lookupW d2 c1)) x + _ = _
            rw [lookupW_addW_ne c1 x (p1 * lookupW d2 c1) hne]
          · rw [hih.2]
            show lookupW (addW acc.2 c1 (p1 * lookupW d2 c1)) x + _ = _
            rw [lookupW_addW_ne c1 x (p1 * lookupW d2 c1) hne]
        · rw [if_neg hpos]
          have hih := ih hndtl acc x
          rw [hcons]
          exact ⟨hih.1, hih.2⟩

/-- C6: for every coordinate with positive weight in both inputs, the
combination produces the joint weight `self[c] * other[c]` at that coordinate
in both result distributions; every other coordinate is absent (weight 0).
The last conjunct is the claim's concrete instance
combine({(0,0): 1/2, (1,1): 1/2}, {(1,1): 1}) = ({(1,1): 1/2}, {(1,1): 1/2}). -/
theorem combine_lookup_spec (d1 d2 : CoordMap)
    (h1 : (d1.map Prod.fst).Nodup) (h2 : (d2.map Prod.fst).Nodup) :
    (∀ c : Coord,
      lookupW (combineInto d1 d2).1 c
        = (if 0 < lookupW d1 c ∧ 0 < lookupW d2 c then lookupW d1 c * lookupW d2 c else 0) ∧
      lookupW (combineInto d1 d2).2 c
        = (if 0 < lookupW d1 c ∧ 0 < lookupW d2 c then lookupW d1 c * lookupW d2 c else 0)) ∧
    combineInto [(((0:ℤ),(0:ℤ)), (1:ℚ)/2), (((1:ℤ),(1:ℤ)), (1:ℚ)/2)]
        [(((1:ℤ),(1:ℤ)), (1:ℚ))]
      = ([(((1:ℤ),(1:ℤ)), (1:ℚ)/2)], [(((1:ℤ),(1:ℤ)), (1:ℚ)/2)]) := by
  constructor
  · intro c
    have h := combineOuter_lookup d2 h2 d1 h1 ([], []) c
    simpa [combineInto, lookupW] using h
  · norm_num [combineInto, combineOuter, combineStep, addW]

/-- Witness for `combine_lookup_spec`: the claim's concrete instance,
obtained by applying the theorem to the two concrete distributions. -/
theorem combine_lookup_spec_witness :
    combineInto [(((0:ℤ),(0:ℤ)), (1:ℚ)/2), (((1:ℤ),(1:ℤ)), (1:ℚ)/2)]
        [(((1:ℤ),(1:ℤ)), (1:ℚ))]
      = ([(((1:ℤ),(1:ℤ)), (1:ℚ)/2)], [(((1:ℤ),(1:ℤ)), (1:ℚ)/2)]) :=
  (combine_lookup_spec [(((0:ℤ),(0:ℤ)), (1:ℚ)/2), (((1:ℤ),(1:ℤ)), (1:ℚ)/2)]
    [(((1:ℤ),(1:ℤ)), (1:ℚ))] (by simp) (by simp)).2

theorem total_pos_of_pos (d : CoordMap) (hne : d ≠ []) (hpos : ∀ p ∈ d, 0 < p.2) :
    0 < total d := by
  cases d with
  | nil => exact absurd rfl hne
  | cons hd tl =>
      obtain ⟨c, p⟩ := hd
      rw [total_cons]
      refine add_pos_of_pos_of_nonneg (hpos (c, p) (List.mem_cons_self _ _)) ?_
      refine List.sum_nonneg fun x hx => ?_
      obtain ⟨q, hq, hqx⟩ := List.mem_map.mp hx
      rw [← hqx]
      exact le_of_lt (hpos q (List.mem_cons_of_mem _ hq))

theorem normalize_ne_nil (d : CoordMap) (h : d ≠ []) : NormalizeDistribution d ≠ [] := by
  by_cases ht : 0 < total d
  · rw [normalize_pos_eq d ht]
    exact fun hcon => h (List.map_eq_nil_iff.mp hcon)
  · rw [normalize_of_not_pos d ht]
    exact h

theorem collapse_noop (q : QuantumObject) (r : ℚ) (hq : q.IsCollapsed = true) :
    Collapse q r = q := by
  simp [Collapse, hq]

theorem collapse_success (q : QuantumObject) (r : ℚ)
    (hq : q.IsCollapsed = false) (hne : q.CoordDist ≠ [])
    (hpos : ∀ p ∈ q.CoordDist, 0 < p.2) (hr : r ≤ 1) :
    (Collapse q r).IsCollapsed = true := by
  have ht : 0 < total q.CoordDist := total_pos_of_pos _ hne hpos
  have h1 : total (NormalizeDistribution q.CoordDist) = 1 := normalize_total _ ht
  have hsome := collapseLoop_isSome (NormalizeDistribution q.CoordDist) r 0
    (normalize_ne_nil _ hne) (by rw [h1, zero_add]; exact hr)
  obtain ⟨c, hc⟩ := Option.isSome_iff_exists.mp hsome
  simp [Collapse, hq, hc]

theorem collapse_singleton (q : QuantumObject) (r : ℚ) (c : Coord) (w : ℚ)
    (hq : q.IsCollapsed = false) (hd : q.CoordDist = [(c, w)]) (hw : 0 < w)
    (hr : r ≤ 1) :
    (Collapse q r).IsCollapsed = true ∧ (Collapse q r).FinalCoord = c := by
  have ht : total [(c, w)] = w := by rw [total_cons, total_nil, add_zero]
  have hN : NormalizeDistribution q.CoordDist = [(c, 1)] := by
    rw [hd, normalize_pos_eq _ (by rw [ht]; exact hw), ht, List.map_cons, List.map_nil]
    simp only [div_self (ne_of_gt hw)]
  have hL : collapseLoop r 0 (NormalizeDistribution q.CoordDist) = some c := by
    rw [hN]
    simp only [collapseLoop, zero_add]
    rw [if_pos hr]
  simp [Collapse, hq, hL]

theorem measureInteraction_eq_of_empty (a b : QuantumObject) (r1 r2 : ℚ)
    (hcond : (a.IsCollapsed && b.IsCollapsed) = false)
    (hov : (combineInto (NormalizeDistribution a.CoordDist)
        (NormalizeDistribution b.CoordDist)).1 = []) :
    MeasureInteraction a b r1 r2 =
      ({ a with CoordDist := NormalizeDistribution a.CoordDist },
       { b with CoordDist := NormalizeDistribution b.CoordDist }) := by
  simp only [MeasureInteraction, hcond, Bool.false_eq_true, if_false]
  rw [if_pos (Or.inl hov)]

theorem measureInteraction_eq_of_overlap (a b : QuantumObject) (r1 r2 : ℚ)
    (hcond : (a.IsCollapsed && b.IsCollapsed) = false)
    (hov : (combineInto (NormalizeDistribution a.CoordDist)
        (NormalizeDistribution b.CoordDist)).1 ≠ []) :
    MeasureInteraction a b r1 r2 =
      (Collapse { a with CoordDist := (combineInto (NormalizeDistribution a.CoordDist)
          (NormalizeDistribution b.CoordDist)).1 } r1,
       Collapse { b with CoordDist := (combineInto (NormalizeDistribution a.CoordDist)
          (NormalizeDistribution b.CoordDist)).2 } r2) := by
  have hov2 : (combineInto (NormalizeDistribution a.CoordDist)
      (NormalizeDistribution b.CoordDist)).2 ≠ [] := by
    rw [← combineInto_fst_eq_snd]
    exact hov
  simp only [MeasureInteraction, hcond, Bool.false_eq_true, if_false]
  rw [if_neg (fun h => h.elim hov hov2)]

/-- C2 (counterexample): the claim fails because `MeasureInteraction`
normalizes both distributions in place before it detects the empty overlap.
With A = {(0,0): 2} and B = {(1,1): 1} the overlap is empty, yet A's stored
distribution comes back normalized to {(0,0): 1}, not "exactly as it was". -/
theorem interact_unchanged_counterexample :
    (MeasureInteraction (NewQuantumObject "CA" [(((0:ℤ),(0:ℤ)), (2:ℚ))])
        (NewQuantumObject "CB" [(((1:ℤ),(1:ℤ)), (1:ℚ))]) (1/2) (1/2)).1.CoordDist
      = [(((0:ℤ),(0:ℤ)), (1:ℚ))] ∧
    (NewQuantumObject "CA" [(((0:ℤ),(0:ℤ)), (2:ℚ))]).CoordDist
      = [(((0:ℤ),(0:ℤ)), (2:ℚ))] ∧
    ([(((0:ℤ),(0:ℤ)), (1:ℚ))] : CoordMap) ≠ [(((0:ℤ),(0:ℤ)), (2:ℚ))] ∧
    (combineInto (NormalizeDistribution [(((0:ℤ),(0:ℤ)), (2:ℚ))])
        (NormalizeDistribution [(((1:ℤ),(1:ℤ)), (1:ℚ))])).1 = [] := by
  have hcomb : (combineInto (NormalizeDistribution [(((0:ℤ),(0:ℤ)), (2:ℚ))])
      (NormalizeDistribution [(((1:ℤ),(1:ℤ)), (1:ℚ))])).1 = [] := by
    norm_num [NormalizeDistribution, total, combineInto, combineOuter, combineStep]
  refine ⟨?_, rfl, by norm_num, hcomb⟩
  rw [measureInteraction_eq_of_empty
    (NewQuantumObject "CA" [(((0:ℤ),(0:ℤ)), (2:ℚ))])
    (NewQuantumObject "CB" [(((1:ℤ),(1:ℤ)), (1:ℚ))]) (1/2) (1/2) rfl hcomb]
  norm_num [NewQuantumObject, NormalizeDistribution, total]

/-- C2 (amended): on an empty overlap (with not both objects already
resolved, so that the overlap is actually computed), `MeasureInteraction`
leaves both resolution states, final coordinates and names unchanged, and
replaces each distribution by its normalization — so a distribution that is
already normalized, or has non-positive total, is returned unchanged, but an
unnormalized one comes back normalized. -/
theorem interact_empty_overlap (a b : QuantumObject) (r1 r2 : ℚ)
    (hres : ¬(a.IsCollapsed = true ∧ b.IsCollapsed = true))
    (hov : (combineInto (NormalizeDistribution a.CoordDist)
        (NormalizeDistribution b.CoordDist)).1 = []) :
    MeasureInteraction a b r1 r2 =
      ({ a with CoordDist := NormalizeDistribution a.CoordDist },
       { b with CoordDist := NormalizeDistribution b.CoordDist }) ∧
    (MeasureInteraction a b r1 r2).1.IsCollapsed = a.IsCollapsed ∧
    (MeasureInteraction a b r1 r2).2.IsCollapsed = b.IsCollapsed ∧
    (MeasureInteraction a b r1 r2).1.FinalCoord = a.FinalCoord ∧
    (MeasureInteraction a b r1 r2).2.FinalCoord = b.FinalCoord := by
  have hcond : (a.IsCollapsed && b.IsCollapsed) = false := by
    cases hA : a.IsCollapsed <;> cases hB : b.IsCollapsed <;> simp_all
  have heq := measureInteraction_eq_of_empty a b r1 r2 hcond hov
  rw [heq]
  exact ⟨rfl, rfl, rfl, rfl, rfl⟩

/-- Witness for `interact_empty_overlap`: A = {(0,0): 2}, B = {(1,1): 1},
both unresolved, draws 1/3. -/
theorem interact_empty_overlap_witness :
    (MeasureInteraction (NewQuantumObject "EA" [(((0:ℤ),(0:ℤ)), (2:ℚ))])
        (NewQuantumObject "EB" [(((1:ℤ),(1:ℤ)), (1:ℚ))]) (1/3) (1/3)).1.IsCollapsed
      = (NewQuantumObject "EA" [(((0:ℤ),(0:ℤ)), (2:ℚ))]).IsCollapsed ∧
    (MeasureInteraction (NewQuantumObject "EA" [(((0:ℤ),(0:ℤ)), (2:ℚ))])
        (NewQuantumObject "EB" [(((1:ℤ),(1:ℤ)), (1:ℚ))]) (1/3) (1/3)).2.IsCollapsed
      = (NewQuantumObject "EB" [(((1:ℤ),(1:ℤ)), (1:ℚ))]).IsCollapsed := by
  have h := interact_empty_overlap (NewQuantumObject "EA" [(((0:ℤ),(0:ℤ)), (2:ℚ))])
    (NewQuantumObject "EB" [(((1:ℤ),(1:ℤ)), (1:ℚ))]) (1/3) (1/3)
    (by simp [NewQuantumObject])
    (by norm_num [NewQuantumObject, NormalizeDistribution, total, combineInto,
      combineOuter, combineStep])
  exact ⟨h.2.1, h.2.2.1⟩

/-- C1 (counterexample): the claim fails at concrete inputs in two ways.
(i) Both objects unresolved over {(0,0): 1/2, (1,1): 1/2}: the overlap keeps
two coordinates, and draws 1/10 and 9/10 resolve the objects to different
coordinates.  (ii) The first object already resolved at (5,5) with stored
distribution {(0,0): 1} (the claim's "not both resolved" holds): after the
successful interaction it stays at (5,5) while the partner resolves to (0,0). -/
theorem interact_joint_counterexample :
    ((MeasureInteraction
        (NewQuantumObject "A1" [(((0:ℤ),(0:ℤ)), (1:ℚ)/2), (((1:ℤ),(1:ℤ)), (1:ℚ)/2)])
        (NewQuantumObject "B1" [(((0:ℤ),(0:ℤ)), (1:ℚ)/2), (((1:ℤ),(1:ℤ)), (1:ℚ)/2)])
        (1/10) (9/10)).1.IsCollapsed = true ∧
     (MeasureInteraction
        (NewQuantumObject "A1" [(((0:ℤ),(0:ℤ)), (1:ℚ)/2), (((1:ℤ),(1:ℤ)), (1:ℚ)/2)])
        (NewQuantumObject "B1" [(((0:ℤ),(0:ℤ)), (1:ℚ)/2), (((1:ℤ),(1:ℤ)), (1:ℚ)/2)])
        (1/10) (9/10)).2.IsCollapsed = true ∧
     (MeasureInteraction
        (NewQuantumObject "A1" [(((0:ℤ),(0:ℤ)), (1:ℚ)/2), (((1:ℤ),(1:ℤ)), (1:ℚ)/2)])
        (NewQuantumObject "B1" [(((0:ℤ),(0:ℤ)), (1:ℚ)/2), (((1:ℤ),(1:ℤ)), (1:ℚ)/2)])
        (1/10) (9/10)).1.FinalCoord = ((0:ℤ),(0:ℤ)) ∧
     (MeasureInteraction
        (NewQuantumObject "A1" [(((0:ℤ),(0:ℤ)), (1:ℚ)/2), (((1:ℤ),(1:ℤ)), (1:ℚ)/2)])
        (NewQuantumObject "B1" [(((0:ℤ),(0:ℤ)), (1:ℚ)/2), (((1:ℤ),(1:ℤ)), (1:ℚ)/2)])
        (1/10) (9/10)).2.FinalCoord = ((1:ℤ),(1:ℤ))) ∧
    ((MeasureInteraction
        ⟨"A2", [(((0:ℤ),(0:ℤ)), (1:ℚ))], true, ((5:ℤ),(5:ℤ))⟩
        (NewQuantumObject "B2" [(((0:ℤ),(0:ℤ)), (1:ℚ))])
        (1/2) (1/2)).1.FinalCoord = ((5:ℤ),(5:ℤ)) ∧
     (MeasureInteraction
        ⟨"A2", [(((0:ℤ),(0:ℤ)), (1:ℚ))], true, ((5:ℤ),(5:ℤ))⟩
        (NewQuantumObject "B2" [(((0:ℤ),(0:ℤ)), (1:ℚ))])
        (1/2) (1/2)).2.FinalCoord = ((0:ℤ),(0:ℤ)) ∧
     (MeasureInteraction
        ⟨"A2", [(((0:ℤ),(0:ℤ)), (1:ℚ))], true, ((5:ℤ),(5:ℤ))⟩
        (NewQuantumObject "B2" [(((0:ℤ),(0:ℤ)), (1:ℚ))])
        (1/2) (1/2)).1.IsCollapsed = true ∧
     (MeasureInteraction
        ⟨"A2", [(((0:ℤ),(0:ℤ)), (1:ℚ))], true, ((5:ℤ),(5:ℤ))⟩
        (NewQuantumObject "B2" [(((0:ℤ),(0:ℤ)), (1:ℚ))])
        (1/2) (1/2)).2.IsCollapsed = true) := by
  have hcomb1 : combineInto
      (NormalizeDistribution (NewQuantumObject "A1"
        [(((0:ℤ),(0:ℤ)), (1:ℚ)/2), (((1:ℤ),(1:ℤ)), (1:ℚ)/2)]).CoordDist)
      (NormalizeDistribution (NewQuantumObject "B1"
        [(((0:ℤ),(0:ℤ)), (1:ℚ)/2), (((1:ℤ),(1:ℤ)), (1:ℚ)/2)]).CoordDist)
      = ([(((0:ℤ),(0:ℤ)), (1:ℚ)/4), (((1:ℤ),(1:ℤ)), (1:ℚ)/4)],
         [(((0:ℤ),(0:ℤ)), (1:ℚ)/4), (((1:ℤ),(1:ℤ)), (1:ℚ)/4)]) := by
    norm_num [NewQuantumObject, NormalizeDistribution, total, combineInto,
      combineOuter, combineStep, addW]
  have hov1 : (combineInto
      (NormalizeDistribution (NewQuantumObject "A1"
        [(((0:ℤ),(0:ℤ)), (1:ℚ)/2), (((1:ℤ),(1:ℤ)), (1:ℚ)/2)]).CoordDist)
      (NormalizeDistribution (NewQuantumObject "B1"
        [(((0:ℤ),(0:ℤ)), (1:ℚ)/2), (((1:ℤ),(1:ℤ)), (1:ℚ)/2)]).CoordDist)).1 ≠ [] := by
    rw [hcomb1]
    exact List.cons_ne_nil _ _
  have h1 : MeasureInteraction
      (NewQuantumObject "A1" [(((0:ℤ),(0:ℤ)), (1:ℚ)/2), (((1:ℤ),(1:ℤ)), (1:ℚ)/2)])
      (NewQuantumObject "B1" [(((0:ℤ),(0:ℤ)), (1:ℚ)/2), (((1:ℤ),(1:ℤ)), (1:ℚ)/2)])
      (1/10) (9/10)
      = (⟨"A1", [(((0:ℤ),(0:ℤ)), (1:ℚ)/2), (((1:ℤ),(1:ℤ)), (1:ℚ)/2)], true,
           ((0:ℤ),(0:ℤ))⟩,
         ⟨"B1", [(((0:ℤ),(0:ℤ)), (1:ℚ)/2), (((1:ℤ),(1:ℤ)), (1:ℚ)/2)], true,
           ((1:ℤ),(1:ℤ))⟩) := by
    rw [measureInteraction_eq_of_overlap
      (NewQuantumObject "A1" [(((0:ℤ),(0:ℤ)), (1:ℚ)/2), (((1:ℤ),(1:ℤ)), (1:ℚ)/2)])
      (NewQuantumObject "B1" [(((0:ℤ),(0:ℤ)), (1:ℚ)/2), (((1:ℤ),(1:ℤ)), (1:ℚ)/2)])
      (1/10) (9/10) rfl hov1, hcomb1]
    norm_num [NewQuantumObject, NormalizeDistribution, total, Collapse, collapseLoop]
  have hcomb2 : combineInto
      (NormalizeDistribution
        (⟨"A2", [(((0:ℤ),(0:ℤ)), (1:ℚ))], true, ((5:ℤ),(5:ℤ))⟩ :
          QuantumObject).CoordDist)
      (NormalizeDistribution (NewQuantumObject "B2"
        [(((0:ℤ),(0:ℤ)), (1:ℚ))]).CoordDist)
      = ([(((0:ℤ),(0:ℤ)), (1:ℚ))], [(((0:ℤ),(0:ℤ)), (1:ℚ))]) := by
    norm_num [NewQuantumObject, NormalizeDistribution, total, combineInto,
      combineOuter, combineStep, addW]
  have hov2 : (combineInto
      (NormalizeDistribution
        (⟨"A2", [(((0:ℤ),(0:ℤ)), (1:ℚ))], true, ((5:ℤ),(5:ℤ))⟩ :
          QuantumObject).CoordDist)
      (NormalizeDistribution (NewQuantumObject "B2"
        [(((0:ℤ),(0:ℤ)), (1:ℚ))]).CoordDist)).1 ≠ [] := by
    rw [hcomb2]
    exact List.cons_ne_nil _ _
  have h2 : MeasureInteraction
      (⟨"A2", [(((0:ℤ),(0:ℤ)), (1:ℚ))], true, ((5:ℤ),(5:ℤ))⟩ : QuantumObject)
      (NewQuantumObject "B2" [(((0:ℤ),(0:ℤ)), (1:ℚ))]) (1/2) (1/2)
      = (⟨"A2", [(((0:ℤ),(0:ℤ)), (1:ℚ))], true, ((5:ℤ),(5:ℤ))⟩,
         ⟨"B2", [(((0:ℤ),(0:ℤ)), (1:ℚ))], true, ((0:ℤ),(0:ℤ))⟩) := by
    rw [measureInteraction_eq_of_overlap
      (⟨"A2", [(((0:ℤ),(0:ℤ)), (1:ℚ))], true, ((5:ℤ),(5:ℤ))⟩ : QuantumObject)
      (NewQuantumObject "B2" [(((0:ℤ),(0:ℤ)), (1:ℚ))])
      (1/2) (1/2) rfl hov2, hcomb2]
    norm_num [NewQuantumObject, NormalizeDistribution, total, Collapse, collapseLoop]
  rw [h1, h2]
  exact ⟨⟨rfl, rfl, rfl, rfl⟩, ⟨rfl, rfl, rfl, rfl⟩⟩

/-- C1 (amended): when both objects are unresolved and the combined overlap
is non-empty, a successful interaction resolves both objects for all draws
below 1; and when the overlap retains exactly one coordinate, both objects
finalize at that same coordinate, for every pair of draws.  (By the
counterexample, the unrestricted claim fails when the overlap keeps more
than one coordinate or when one object was already resolved.) -/
theorem interact_joint_resolution (a b : QuantumObject) (r1 r2 : ℚ)
    (ha : a.IsCollapsed = false) (hb : b.IsCollapsed = false)
    (hr1 : r1 < 1) (hr2 : r2 < 1)
    (hov : (combineInto (NormalizeDistribution a.CoordDist)
        (NormalizeDistribution b.CoordDist)).1 ≠ []) :
    ((MeasureInteraction a b r1 r2).1.IsCollapsed = true ∧
     (MeasureInteraction a b r1 r2).2.IsCollapsed = true) ∧
    ∀ (c : Coord) (w : ℚ),
      (combineInto (NormalizeDistribution a.CoordDist)
          (NormalizeDistribution b.CoordDist)).1 = [(c, w)] →
      (MeasureInteraction a b r1 r2).1.FinalCoord = c ∧
      (MeasureInteraction a b r1 r2).2.FinalCoord = c := by
  have hcond : (a.IsCollapsed && b.IsCollapsed) = false := by rw [ha]; rfl
  have heq := measureInteraction_eq_of_overlap a b r1 r2 hcond hov
  have hpos := combineInto_pos (NormalizeDistribution a.CoordDist)
    (NormalizeDistribution b.CoordDist)
  have hsndfst := combineInto_fst_eq_snd (NormalizeDistribution a.CoordDist)
    (NormalizeDistribution b.CoordDist)
  have hov2 : (combineInto (NormalizeDistribution a.CoordDist)
      (NormalizeDistribution b.CoordDist)).2 ≠ [] := by
    rw [← hsndfst]
    exact hov
  rw [heq]
  constructor
  · exact ⟨collapse_success _ r1 ha hov hpos.1 (le_of_lt hr1),
      collapse_success _ r2 hb hov2 hpos.2 (le_of_lt hr2)⟩
  · intro c w hs
    have hw : 0 < w := by
      refine hpos.1 (c, w) ?_
      rw [hs]
      exact List.mem_singleton.mpr rfl
    have hs2 : (combineInto (NormalizeDistribution a.CoordDist)
        (NormalizeDistribution b.CoordDist)).2 = [(c, w)] := by
      rw [← hsndfst]
      exact hs
    have h1 := collapse_singleton
      { a with CoordDist := (combineInto (NormalizeDistribution a.CoordDist)
          (NormalizeDistribution b.CoordDist)).1 } r1 c w ha hs hw (le_of_lt hr1)
    have h2 := collapse_singleton
      { b with CoordDist := (combineInto (NormalizeDistribution a.CoordDist)
          (NormalizeDistribution b.CoordDist)).2 } r2 c w hb hs2 hw (le_of_lt hr2)
    exact ⟨h1.2, h2.2⟩

/-- Witness for `interact_joint_resolution`: both objects unresolved,
single-coordinate overlap at (1,1), draws 1/3 and 1/3. -/
theorem interact_joint_resolution_witness :
    (MeasureInteraction
        (NewQuantumObject "JA" [(((1:ℤ),(1:ℤ)), (1:ℚ)/2), (((0:ℤ),(0:ℤ)), (1:ℚ)/2)])
        (NewQuantumObject "JB" [(((1:ℤ),(1:ℤ)), (1:ℚ))]) (1/3) (1/3)).1.IsCollapsed
      = true ∧
    (MeasureInteraction
        (NewQuantumObject "JA" [(((1:ℤ),(1:ℤ)), (1:ℚ)/2), (((0:ℤ),(0:ℤ)), (1:ℚ)/2)])
        (NewQuantumObject "JB" [(((1:ℤ),(1:ℤ)), (1:ℚ))]) (1/3) (1/3)).2.IsCollapsed
      = true ∧
    (MeasureInteraction
        (NewQuantumObject "JA" [(((1:ℤ),(1:ℤ)), (1:ℚ)/2), (((0:ℤ),(0:ℤ)), (1:ℚ)/2)])
        (NewQuantumObject "JB" [(((1:ℤ),(1:ℤ)), (1:ℚ))]) (1/3) (1/3)).1.FinalCoord
      = ((1:ℤ),(1:ℤ)) ∧
    (MeasureInteraction
        (NewQuantumObject "JA" [(((1:ℤ),(1:ℤ)), (1:ℚ)/2), (((0:ℤ),(0:ℤ)), (1:ℚ)/2)])
        (NewQuantumObject "JB" [(((1:ℤ),(1:ℤ)), (1:ℚ))]) (1/3) (1/3)).2.FinalCoord
      = ((1:ℤ),(1:ℤ)) := by
  have hcomb : combineInto
      (NormalizeDistribution (NewQuantumObject "JA"
        [(((1:ℤ),(1:ℤ)), (1:ℚ)/2), (((0:ℤ),(0:ℤ)), (1:ℚ)/2)]).CoordDist)
      (NormalizeDistribution (NewQuantumObject "JB"
        [(((1:ℤ),(1:ℤ)), (1:ℚ))]).CoordDist)
      = ([(((1:ℤ),(1:ℤ)), (1:ℚ)/2)], [(((1:ℤ),(1:ℤ)), (1:ℚ)/2)]) := by
    norm_num [NewQuantumObject, NormalizeDistribution, total, combineInto,
      combineOuter, combineStep, addW]
  have h := interact_joint_resolution
    (NewQuantumObject "JA" [(((1:ℤ),(1:ℤ)), (1:ℚ)/2), (((0:ℤ),(0:ℤ)), (1:ℚ)/2)])
    (NewQuantumObject "JB" [(((1:ℤ),(1:ℤ)), (1:ℚ))]) (1/3) (1/3) rfl rfl
    (by norm_num) (by norm_num)
    (by rw [hcomb]; exact List.cons_ne_nil _ _)
  have hs := h.2 ((1:ℤ),(1:ℤ)) ((1:ℚ)/2) (by rw [hcomb])
  exact ⟨h.1.1, h.1.2, hs.1, hs.2⟩

theorem collapseList_length (objs : List QuantumObject) :
    ∀ rs : Nat → ℚ, (collapseList objs rs).length = objs.length := by
  induction objs with
  | nil => intro rs; rfl
  | cons o rest ih =>
      intro rs
      simp [collapseList, ih]

theorem collapseList_get (objs : List QuantumObject) :
    ∀ (rs : Nat → ℚ) (i : Nat) (h1 : i < objs.length)
      (h2 : i < (collapseList objs rs).length),
      (collapseList objs rs).get ⟨i, h2⟩ = Collapse (objs.get ⟨i, h1⟩) (rs i) := by
  induction objs with
  | nil => intro rs i h1 _; exact absurd h1 (Nat.not_lt_zero i)
  | cons o rest ih =>
      intro rs i h1 h2
      cases i with
      | zero => rfl
      | succ n =>
          have h1' : n < rest.length := Nat.lt_of_succ_lt_succ h1
          have h2' : n < (collapseList rest (fun k => rs (k + 1))).length := by
            rw [collapseList_length]
            exact h1'
          show (collapseList rest (fun k => rs (k + 1))).get ⟨n, h2'⟩ = _
          rw [ih (fun k => rs (k + 1)) n h1' h2']
          rfl

theorem measureInteraction_fst_collapsed (a b : QuantumObject) (r1 r2 : ℚ)
    (ha : a.IsCollapsed = true) :
    (MeasureInteraction a b r1 r2).1.IsCollapsed = true ∧
    (MeasureInteraction a b r1 r2).1.FinalCoord = a.FinalCoord := by
  by_cases hb : b.IsCollapsed = true
  · have heq : MeasureInteraction a b r1 r2 = (a, b) := by
      simp [MeasureInteraction, ha, hb]
    rw [heq]
    exact ⟨ha, rfl⟩
  · have hb' : b.IsCollapsed = false := by
      cases hB : b.IsCollapsed
      · rfl
      · exact absurd hB hb
    have hcond : (a.IsCollapsed && b.IsCollapsed) = false := by rw [ha, hb']; rfl
    by_cases hov : (combineInto (NormalizeDistribution a.CoordDist)
        (NormalizeDistribution b.CoordDist)).1 = []
    · rw [measureInteraction_eq_of_empty a b r1 r2 hcond hov]
      exact ⟨ha, rfl⟩
    · rw [measureInteraction_eq_of_overlap a b r1 r2 hcond hov]
      rw [collapse_noop { a with CoordDist := (combineInto
        (NormalizeDistribution a.CoordDist) (NormalizeDistribution b.CoordDist)).1 } r1 ha]
      exact ⟨ha, rfl⟩

theorem measureInteraction_snd_collapsed (a b : QuantumObject) (r1 r2 : ℚ)
    (hb : b.IsCollapsed = true) :
    (MeasureInteraction a b r1 r2).2.IsCollapsed = true ∧
    (MeasureInteraction a b r1 r2).2.FinalCoord = b.FinalCoord := by
  by_cases ha : a.IsCollapsed = true
  · have heq : MeasureInteraction a b r1 r2 = (a, b) := by
      simp [MeasureInteraction, ha, hb]
    rw [heq]
    exact ⟨hb, rfl⟩
  · have ha' : a.IsCollapsed = false := by
      cases hA : a.IsCollapsed
      · rfl
      · exact absurd hA ha
    have hcond : (a.IsCollapsed && b.IsCollapsed) = false := by rw [ha']; rfl
    by_cases hov : (combineInto (NormalizeDistribution a.CoordDist)
        (NormalizeDistribution b.CoordDist)).1 = []
    · rw [measureInteraction_eq_of_empty a b r1 r2 hcond hov]
      exact ⟨hb, rfl⟩
    · rw [measureInteraction_eq_of_overlap a b r1 r2 hcond hov]
      rw [collapse_noop { b with CoordDist := (combineInto
        (NormalizeDistribution a.CoordDist) (NormalizeDistribution b.CoordDist)).2 } r2 hb]
      exact ⟨hb, rfl⟩

/-- C7: resolution is irreversible.  `Collapse` on a collapsed object is the
identity for every draw, `MeasureInteraction` never clears the flag or moves
the final coordinate of an already-collapsed participant, and `CollapseAll`
returns every already-collapsed object unchanged. -/
theorem resolution_irreversible :
    (∀ (q : QuantumObject) (r : ℚ), q.IsCollapsed = true → Collapse q r = q) ∧
    (∀ (a b : QuantumObject) (r1 r2 : ℚ), a.IsCollapsed = true →
      (MeasureInteraction a b r1 r2).1.IsCollapsed = true ∧
      (MeasureInteraction a b r1 r2).1.FinalCoord = a.FinalCoord) ∧
    (∀ (a b : QuantumObject) (r1 r2 : ℚ), b.IsCollapsed = true →
      (MeasureInteraction a b r1 r2).2.IsCollapsed = true ∧
      (MeasureInteraction a b r1 r2).2.FinalCoord = b.FinalCoord) ∧
    (∀ (w : World) (rs : Nat → ℚ) (i : Nat) (h1 : i < w.Objects.length)
      (h2 : i < (CollapseAll w rs).Objects.length),
      (w.Objects.get ⟨i, h1⟩).IsCollapsed = true →
      (CollapseAll w rs).Objects.get ⟨i, h2⟩ = w.Objects.get ⟨i, h1⟩) := by
  refine ⟨fun q r hq => collapse_noop q r hq,
    fun a b r1 r2 ha => measureInteraction_fst_collapsed a b r1 r2 ha,
    fun a b r1 r2 hb => measureInteraction_snd_collapsed a b r1 r2 hb,
    fun w rs i h1 h2 hcol => ?_⟩
  exact (collapseList_get w.Objects rs i h1 h2).trans
    (collapse_noop (w.Objects.get ⟨i, h1⟩) (rs i) hcol)

/-- Witness for `resolution_irreversible` on an object collapsed at (4,4). -/
theorem resolution_irreversible_witness :
    Collapse ⟨"QW", [(((0:ℤ),(0:ℤ)), (1:ℚ))], true, ((4:ℤ),(4:ℤ))⟩ (1/2)
      = ⟨"QW", [(((0:ℤ),(0:ℤ)), (1:ℚ))], true, ((4:ℤ),(4:ℤ))⟩ ∧
    (MeasureInteraction ⟨"QW", [(((0:ℤ),(0:ℤ)), (1:ℚ))], true, ((4:ℤ),(4:ℤ))⟩
        (NewQuantumObject "QX" [(((0:ℤ),(0:ℤ)), (1:ℚ))]) (1/2) (1/2)).1.FinalCoord
      = ((4:ℤ),(4:ℤ)) :=
  ⟨resolution_irreversible.1 _ _ rfl,
   (resolution_irreversible.2.1 _ _ _ _ rfl).2⟩

